import Mathlib

/-!
Shallow embedding of `src/expr.rs` (crate `cc`): a nom-based recursive-descent
parser for an expression language over Gaussian integers.

Modelling choices:
* `Span` (nom's located span over a string slice) is modelled as `List Char`;
  position information is irrelevant to the properties below, only the
  remaining input matters.
* `IResult T` is modelled as `Option (List Char × T)`: the parser either
  fails (`none`; the source raises only recoverable nom errors, it never uses
  a fatal `cut`) or returns the remaining input together with the parsed
  value.
* Recursion through the grammar is fuelled: `run fuel rule input` decrements
  the fuel at each step from one grammar rule into another. The Rust code
  terminates because every cycle through the grammar consumes input; with
  enough fuel the embedding computes the same results.
-/

/-- A parser over the input span: the model of a nom parser returning `α`. -/
def Parser (α : Type) : Type := List Char → Option (List Char × α)

/-- Modelled from the spec: `ComplexInt`, the Gaussian-integer value type of
the crate root (not under `src/`), "a pair of signed 64-bit integers
`(real, imag)`". The parser builds components only from a successful `i64`
conversion or the constants 0 and 1, so `Int` components model exactly the
reachable values. -/
structure ComplexInt where
  re : Int
  im : Int
deriving DecidableEq, Repr

/-- `enum BinOp` from `src/expr.rs`. -/
inductive BinOp where
  | Plus
  | Minus
  | Times
  | Divide
  | Remainder
  | Equals
  | NotEquals
deriving DecidableEq, Repr

/-- `enum UnOp` from `src/expr.rs`. -/
inductive UnOp where
  | Negate
  | Conjugate
  | Modulus
deriving DecidableEq, Repr

/-- `enum Expr` from `src/expr.rs`; Rust's `Box`/tuple payloads are
flattened, and the `String` of `Id` is modelled as `List Char`. -/
inductive Expr where
  | Value : ComplexInt → Expr
  | Id : List Char → Expr
  | BinOp : BinOp → Expr → Expr → Expr
  | UnOp : UnOp → Expr → Expr
  | IfElse : Expr → Expr → Expr → Expr
deriving DecidableEq, Repr

/-- `RESERVED_WORDS` from `src/expr.rs`. -/
def RESERVED_WORDS : List (List Char) :=
  ["if".toList, "else".toList, "then".toList, "i".toList, "let".toList,
   "print".toList, "println".toList, "while".toList, "fn".toList,
   "mut".toList, "break".toList, "continue".toList,
   "matrix".toList, "return".toList, "pi".toList, "tau".toList]

/-- The digit alphabet used by `decimal` (`one_of("0123456789")`). -/
def digits : List Char := "0123456789".toList

/-- The greatest value of a signed 64-bit integer. -/
def i64Max : Nat := 9223372036854775807

/-- Numeric value of a digit string (most significant digit first). -/
def natVal (s : List Char) : Nat := s.foldl (fun acc c => 10 * acc + (c.toNat - 48)) 0

/-- Model of Rust `str::parse::<i64>()` restricted to the texts `decimal` can
match (ASCII digits and underscores, never a sign): it succeeds exactly on
nonempty all-digit strings whose value fits in an `i64`; an embedded
underscore or an overflow makes it fail, as in Rust. -/
def parseI64 (s : List Char) : Option Int :=
  if s.isEmpty then none
  else if s.all (fun c => digits.contains c) then
    if natVal s ≤ i64Max then some (Int.ofNat (natVal s)) else none
  else none

/-! ### nom combinators, modelled -/

/-- nom `tag`: match an exact string prefix. -/
def tagP (s : List Char) : Parser (List Char) := fun input =>
  if s.isPrefixOf input then some (input.drop s.length, s) else none

/-- nom `character::complete::char`: match one exact character. -/
def charP (c : Char) : Parser Char := fun input =>
  match input with
  | [] => none
  | x :: xs => if x = c then some (xs, c) else none

/-- nom `one_of`: match one character from the given alphabet. -/
def one_of (s : List Char) : Parser Char := fun input =>
  match input with
  | [] => none
  | x :: xs => if s.contains x then some (xs, x) else none

/-- nom `combinator::map`. -/
def pmap {α β : Type} (f : α → β) (p : Parser α) : Parser β := fun input =>
  match p input with
  | none => none
  | some (rest, a) => some (rest, f a)

/-- nom `map_res`: apply a fallible function to the result; its failure is an
ordinary recoverable parse failure. -/
def map_res {α β : Type} (p : Parser α) (f : α → Option β) : Parser β := fun input =>
  match p input with
  | none => none
  | some (rest, a) =>
    match f a with
    | none => none
    | some b => some (rest, b)

/-- nom `alt` on two alternatives: if the first fails (recoverably), try the
second at the same position. `alt` over more alternatives is its nesting. -/
def alt2 {α : Type} (p q : Parser α) : Parser α := fun input =>
  match p input with
  | none => q input
  | some r => some r

/-- nom `opt`: never fails. -/
def opt {α : Type} (p : Parser α) : Parser (Option α) := fun input =>
  match p input with
  | none => some (input, none)
  | some (rest, a) => some (rest, some a)

/-- nom `recognize`: return the consumed portion of the input. -/
def recognize {α : Type} (p : Parser α) : Parser (List Char) := fun input =>
  match p input with
  | none => none
  | some (rest, _) => some (rest, input.take (input.length - rest.length))

/-- nom `verify`: fail unless the predicate holds of the result. -/
def verify {α : Type} (f : α → Bool) (p : Parser α) : Parser α := fun input =>
  match p input with
  | none => none
  | some (rest, a) => if f a then some (rest, a) else none

/-- nom `pair`. -/
def pair {α β : Type} (p : Parser α) (q : Parser β) : Parser (α × β) := fun input =>
  match p input with
  | none => none
  | some (i1, a) =>
    match q i1 with
    | none => none
    | some (i2, b) => some (i2, (a, b))

/-- nom `preceded`. -/
def preceded {α β : Type} (p : Parser α) (q : Parser β) : Parser β := fun input =>
  match p input with
  | none => none
  | some (i1, _) => q i1

/-- nom `terminated`. -/
def terminated {α β : Type} (p : Parser α) (q : Parser β) : Parser α := fun input =>
  match p input with
  | none => none
  | some (i1, a) =>
    match q i1 with
    | none => none
    | some (i2, _) => some (i2, a)

/-- nom `separated_pair`. -/
def separated_pair {α β γ : Type} (p : Parser α) (s : Parser β) (q : Parser γ) :
    Parser (α × γ) := fun input =>
  match p input with
  | none => none
  | some (i1, a) =>
    match s i1 with
    | none => none
    | some (i2, _) =>
      match q i2 with
      | none => none
      | some (i3, c) => some (i3, (a, c))

/-- nom `delimited`. -/
def delimited {α β γ : Type} (l : Parser α) (p : Parser β) (r : Parser γ) :
    Parser β := fun input =>
  match l input with
  | none => none
  | some (i1, _) =>
    match p i1 with
    | none => none
    | some (i2, b) =>
      match r i2 with
      | none => none
      | some (i3, _) => some (i3, b)

/-- The loop of nom `fold_many0`, fuelled by at most the input length: repeat
the parser, folding results; nom fails the whole fold if the inner parser
succeeds without consuming input (infinite-loop protection), modelled by the
length check. `fold_many0` supplies fuel `input.length + 1`, which is enough
because each iteration strictly shrinks the input. -/
def foldMany0Aux {α β : Type} (p : Parser α) (g : β → α → β) :
    Nat → List Char → β → Option (List Char × β)
  | 0, _, _ => none
  | fuel + 1, input, acc =>
    match p input with
    | none => some (input, acc)
    | some (rest, a) =>
      if rest.length = input.length then none
      else foldMany0Aux p g fuel rest (g acc a)

/-- nom `fold_many0`. -/
def fold_many0 {α β : Type} (p : Parser α) (init : β) (g : β → α → β) : Parser β :=
  fun input => foldMany0Aux p g (input.length + 1) input init

/-- nom `many0`, with the collected results discarded (the source only ever
uses `many0`/`many1` under `recognize`, which ignores them). -/
def many0_ {α : Type} (p : Parser α) : Parser Unit :=
  fold_many0 p () (fun _ _ => ())

/-- nom `many1` with results discarded: one mandatory match, then the
`many0` loop. -/
def many1_ {α : Type} (p : Parser α) : Parser Unit := fun input =>
  match p input with
  | none => none
  | some (rest, _) => many0_ p rest

/-- The characters of nom `multispace0`. -/
def isMultispace (c : Char) : Bool := c = ' ' || c = '\t' || c = '\n' || c = '\r'

/-- nom `multispace0`: consume zero or more whitespace characters. -/
def multispace0 : Parser (List Char) := fun input =>
  some (input.dropWhile isMultispace, input.takeWhile isMultispace)

/-- nom `alpha1`: one or more ASCII letters. -/
def alpha1 : Parser (List Char) := fun input =>
  match input.takeWhile Char.isAlpha with
  | [] => none
  | t => some (input.dropWhile Char.isAlpha, t)

/-- nom `alphanumeric1`: one or more ASCII letters or digits. -/
def alphanumeric1 : Parser (List Char) := fun input =>
  match input.takeWhile Char.isAlphanum with
  | [] => none
  | t => some (input.dropWhile Char.isAlphanum, t)

/-- Modelled from the spec: `crate::ws`, the whitespace-skipping combinator
from the crate root (not under `src/`): it "runs parser `P` after/around
consuming whitespace, preserving `P`'s result" — whitespace is skipped both
before and after `P`, exactly the shape `parens` in `src/expr.rs` writes out
by hand with `delimited(multispace0, …, multispace0)`. -/
def ws {α : Type} (p : Parser α) : Parser α := delimited multispace0 p multispace0

/-! ### The lexers of `src/expr.rs` (no grammar recursion) -/

/-- The repeated unit inside `fn decimal`: one digit followed by any run of
grouping underscores, `terminated(one_of("0123456789"), many0(tag("_")))`. -/
def decRun : Parser Char := terminated (one_of digits) (many0_ (tagP ['_']))

/-- `fn decimal`: `recognize(many1(terminated(one_of("0123456789"), many0(tag("_")))))`. -/
def decimal : Parser (List Char) := recognize (many1_ decRun)

/-- `fn real`: a decimal run converted by `parse::<i64>` into `Value(ComplexInt(val, 0))`. -/
def real : Parser Expr :=
  map_res decimal (fun s => (parseI64 s).map (fun val => Expr.Value ⟨val, 0⟩))

/-- `fn imag`: an optional decimal run, then `tag("i")`; empty text means the
unit imaginary `Value(ComplexInt(0, 1))`, otherwise the text is converted by
`parse::<i64>` into `Value(ComplexInt(0, val))`. -/
def imag : Parser Expr :=
  map_res (terminated (recognize (opt decimal)) (tagP ['i']))
    (fun s =>
      if s.isEmpty then some (Expr.Value ⟨0, 1⟩)
      else (parseI64 s).map (fun val => Expr.Value ⟨0, val⟩))

/-- `fn value`: `alt((imag, real))`. -/
def value : Parser Expr := alt2 imag real

/-- The `recognize(pair(...))` inside `fn identifier`: a letter run or `_`,
then any run of alphanumerics, `_` or `'`. -/
def identifier_core : Parser (List Char) :=
  recognize (pair (alt2 alpha1 (tagP ['_']))
    (many0_ (alt2 alphanumeric1 (alt2 (tagP ['_']) (tagP ['\''])))))

/-- `fn identifier`: the core match, verified to not be a reserved word. -/
def identifier : Parser (List Char) :=
  verify (fun id => !(RESERVED_WORDS.contains id)) identifier_core

/-- `fn identifier_expr`. -/
def identifier_expr : Parser Expr := pmap (fun id => Expr.Id id) identifier

/-! ### Grammar rules with recursion, parameterised by the parsers they
recurse into, then tied together with fuel by `run`. -/

/-- The fold step in `fn conj`: `|acc, _| Expr::UnOp(UnOp::Negate, Box::new(acc))`. -/
def conjStep (acc : Expr) (_s : List Char) : Expr := Expr.UnOp UnOp.Negate acc

/-- `fn conj`, given the basic-factor parser: parse one basic factor, then
fold zero-or-more `tag("^")` marks with `conjStep`. -/
def conjFrom (basic : Parser Expr) : Parser Expr := fun input =>
  match basic input with
  | none => none
  | some (input1, init) => fold_many0 (tagP ['^']) init conjStep input1

/-- `fn if_else`, given the expression parser. -/
def ifElseFrom (e : Parser Expr) : Parser Expr :=
  pmap (fun p => Expr.IfElse p.1.1 p.1.2 p.2)
    (preceded (tagP ("if".toList))
      (separated_pair (separated_pair e (tagP ("then".toList)) e)
        (tagP ("else".toList)) e))

/-- `fn negate`, given the factor parser. -/
def negateFrom (f : Parser Expr) : Parser Expr :=
  pmap (fun e => Expr.UnOp UnOp.Negate e) (preceded (tagP ['-']) f)

/-- `fn modulus`, given the expression parser. -/
def modulusFrom (e : Parser Expr) : Parser Expr :=
  pmap (fun x => Expr.UnOp UnOp.Modulus x)
    (delimited (tagP ['|']) e (tagP ['|']))

/-- `fn parens`, given the expression parser. -/
def parensFrom (e : Parser Expr) : Parser Expr :=
  delimited multispace0 (delimited (tagP ['(']) e (tagP [')'])) multispace0

/-- The mutually recursive grammar rules of `src/expr.rs`. -/
inductive Rule where
  | expressionR
  | equalityR
  | exprR
  | termR
  | factorR
  | basicFactorR
deriving DecidableEq, Repr

/-- The grammar of `src/expr.rs`, with fuel making the mutual recursion
structural. Each case is the body of the corresponding Rust function:
`expression`, `equality`, `expr`, `term`, `factor`, `basic_factor` (the
non-recursive helpers `conj`, `if_else`, `negate`, `modulus`, `parens` are
inlined via their `…From` definitions at one fuel step down, exactly where
the Rust functions call each other). -/
def run : Nat → Rule → Parser Expr
  | 0, _ => fun _ => none
  | n + 1, Rule.expressionR => ws (run n Rule.equalityR)
  | n + 1, Rule.equalityR => fun input =>
    match run n Rule.exprR input with
    | none => none
    | some (input1, init) =>
      fold_many0
        (pair (alt2 (tagP ("==".toList)) (tagP ("!=".toList))) (run n Rule.exprR))
        init
        (fun acc p =>
          Expr.BinOp (if p.1 = "==".toList then BinOp.Equals else BinOp.NotEquals) acc p.2)
        input1
  | n + 1, Rule.exprR => fun input =>
    match run n Rule.termR input with
    | none => none
    | some (input1, init) =>
      fold_many0
        (pair (alt2 (charP '+') (charP '-')) (run n Rule.termR))
        init
        (fun acc p =>
          Expr.BinOp (if p.1 = '+' then BinOp.Plus else BinOp.Minus) acc p.2)
        input1
  | n + 1, Rule.termR => fun input =>
    match run n Rule.factorR input with
    | none => none
    | some (input1, init) =>
      fold_many0
        (pair (alt2 (charP '*') (alt2 (charP '/') (charP '%'))) (run n Rule.factorR))
        init
        (fun acc p =>
          Expr.BinOp
            (if p.1 = '*' then BinOp.Times
             else if p.1 = '/' then BinOp.Divide
             else BinOp.Remainder) acc p.2)
        input1
  | n + 1, Rule.factorR =>
    alt2 (ws (conjFrom (run n Rule.basicFactorR))) (run n Rule.basicFactorR)
  | n + 1, Rule.basicFactorR =>
    alt2 (ws identifier_expr)
      (alt2 (ws (ifElseFrom (run n Rule.expressionR)))
        (alt2 (ws value)
          (alt2 (ws (modulusFrom (run n Rule.expressionR)))
            (alt2 (ws (negateFrom (run n Rule.factorR)))
              (parensFrom (run n Rule.expressionR))))))

/-- `pub fn expression`, at the given fuel. -/
def expression (n : Nat) : Parser Expr := run n Rule.expressionR

/-- `fn equality`, at the given fuel. -/
def equality (n : Nat) : Parser Expr := run n Rule.equalityR

/-- `fn expr`, at the given fuel. -/
def expr (n : Nat) : Parser Expr := run n Rule.exprR

/-- `fn term`, at the given fuel. -/
def term (n : Nat) : Parser Expr := run n Rule.termR

/-- `fn factor`, at the given fuel. -/
def factor (n : Nat) : Parser Expr := run n Rule.factorR

/-- `fn basic_factor`, at the given fuel. -/
def basic_factor (n : Nat) : Parser Expr := run n Rule.basicFactorR

/-- `fn conj`, at the given fuel. -/
def conj (n : Nat) : Parser Expr := conjFrom (basic_factor n)

/-- `fn if_else`, at the given fuel. -/
def if_else (n : Nat) : Parser Expr := ifElseFrom (expression n)

/-! ### Helper predicates and measures used to state the claims -/

/-- `k` nested conjugate-fold wrappers, accumulated exactly as the
`fold_many0` in `fn conj` accumulates them. -/
def conjWrap : Nat → Expr → Expr
  | 0, e => e
  | k + 1, e => conjWrap k (Expr.UnOp UnOp.Negate e)

/-- The list is empty or does not start with the given character. -/
def headNotB (a : Char) : List Char → Bool
  | [] => true
  | c :: _ => c != a

/-- Every character is a decimal digit. -/
def allDigits (s : List Char) : Bool := s.all (fun c => digits.contains c)

/-- The list is empty or starts with a character that can extend neither a
digit run nor its trailing underscore run. -/
def stopsRun : List Char → Bool
  | [] => true
  | c :: _ => !(digits.contains c) && c != '_'

/-- The list starts with a decimal digit. -/
def headDigit : List Char → Bool
  | [] => false
  | c :: _ => digits.contains c

/-- No `UnOp` node of the tree carries the `Conjugate` tag. -/
def noConjugate : Expr → Bool
  | .Value _ => true
  | .Id _ => true
  | .BinOp _ l r => noConjugate l && noConjugate r
  | .UnOp op e => (op != UnOp.Conjugate) && noConjugate e
  | .IfElse c t e => noConjugate c && noConjugate t && noConjugate e

/-- Every `Id` node of the tree carries a non-empty name that is not a
reserved word. -/
def validIds : Expr → Bool
  | .Value _ => true
  | .Id s => !s.isEmpty && !(RESERVED_WORDS.contains s)
  | .BinOp _ l r => validIds l && validIds r
  | .UnOp _ e => validIds e
  | .IfElse c t e => validIds c && validIds t && validIds e

/-! ### Concrete-input claims -/

/-- C2: chains of same-level binary operators fold strictly left-associatively
and multiplicative binds tighter than additive: `"1-2-3"` parses to
`BinOp(Minus, (BinOp(Minus, (Value(1,0), Value(2,0))), Value(3,0)))` and
`"1+2*3"` parses to
`BinOp(Plus, (Value(1,0), BinOp(Times, (Value(2,0), Value(3,0)))))`. -/
theorem c2_left_assoc_and_precedence :
    expression 30 ("1-2-3".toList) =
      some ([], Expr.BinOp BinOp.Minus
        (Expr.BinOp BinOp.Minus (Expr.Value ⟨1, 0⟩) (Expr.Value ⟨2, 0⟩))
        (Expr.Value ⟨3, 0⟩)) ∧
    expression 30 ("1+2*3".toList) =
      some ([], Expr.BinOp BinOp.Plus (Expr.Value ⟨1, 0⟩)
        (Expr.BinOp BinOp.Times (Expr.Value ⟨2, 0⟩) (Expr.Value ⟨3, 0⟩))) := by
  constructor
  · decide
  · decide

/-- C6: `"if 1==1 then 2 else 3"` parses with the expression entry point to
`IfElse((BinOp(Equals, (Value(1,0), Value(1,0))), Value(2,0), Value(3,0)))`;
in the embedding the condition and the two branches are parsed by the
recursive occurrences of `expression` inside `ifElseFrom`. -/
theorem c6_conditional_parse :
    expression 40 ("if 1==1 then 2 else 3".toList) =
      some ([], Expr.IfElse
        (Expr.BinOp BinOp.Equals (Expr.Value ⟨1, 0⟩) (Expr.Value ⟨1, 0⟩))
        (Expr.Value ⟨2, 0⟩) (Expr.Value ⟨3, 0⟩)) := by
  decide

/-- C9: whitespace insensitivity on the given inputs: `"1 + 2"`, `"1+2"` and
`" 1+2 "` all parse with the expression entry point to the same AST
`BinOp(Plus, (Value(1,0), Value(2,0)))` (each with the input fully
consumed). -/
theorem c9_whitespace_insensitivity :
    expression 30 ("1 + 2".toList) =
      some ([], Expr.BinOp BinOp.Plus (Expr.Value ⟨1, 0⟩) (Expr.Value ⟨2, 0⟩)) ∧
    expression 30 ("1+2".toList) =
      some ([], Expr.BinOp BinOp.Plus (Expr.Value ⟨1, 0⟩) (Expr.Value ⟨2, 0⟩)) ∧
    expression 30 (" 1+2 ".toList) =
      some ([], Expr.BinOp BinOp.Plus (Expr.Value ⟨1, 0⟩) (Expr.Value ⟨2, 0⟩)) := by
  refine ⟨by decide, by decide, by decide⟩

/-- C10: the keyword tokens are raw `tag` matches with no word-boundary
check: `"if 1 then 2 elsex"` still parses as a conditional, the `else`
keyword being split off the identifier text `elsex`, leaving `x` as the
else-branch `Id("x")`. -/
theorem c10_keyword_no_boundary :
    expression 40 ("if 1 then 2 elsex".toList) =
      some ([], Expr.IfElse (Expr.Value ⟨1, 0⟩) (Expr.Value ⟨2, 0⟩)
        (Expr.Id ("x".toList))) := by
  decide

/-! ### Basic lemmas about the modelled combinators -/

theorem dropWhile_idem (f : Char → Bool) (l : List Char) :
    (l.dropWhile f).dropWhile f = l.dropWhile f := by
  induction l with
  | nil => rfl
  | cons x xs ih =>
    by_cases h : f x
    · simp [List.dropWhile_cons, h, ih]
    · simp [List.dropWhile_cons, h]

theorem ws_eq {α : Type} (p : Parser α) (input : List Char) :
    ws p input =
      match p (input.dropWhile isMultispace) with
      | none => none
      | some (r, a) => some (r.dropWhile isMultispace, a) := by
  cases hp : p (input.dropWhile isMultispace) with
  | none => simp [ws, delimited, multispace0, hp]
  | some x =>
    obtain ⟨r1, a⟩ := x
    simp [ws, delimited, multispace0, hp]

theorem ws_none {α : Type} (p : Parser α) (input : List Char)
    (h : p (input.dropWhile isMultispace) = none) : ws p input = none := by
  rw [ws_eq, h]

theorem ws_some {α : Type} (p : Parser α) (input r : List Char) (a : α)
    (h : p (input.dropWhile isMultispace) = some (r, a)) :
    ws p input = some (r.dropWhile isMultispace, a) := by
  rw [ws_eq, h]

theorem ws_inv {α : Type} {p : Parser α} {input rest : List Char} {a : α}
    (h : ws p input = some (rest, a)) :
    ∃ r1, p (input.dropWhile isMultispace) = some (r1, a) ∧
      rest = r1.dropWhile isMultispace := by
  rw [ws_eq] at h
  cases hp : p (input.dropWhile isMultispace) with
  | none => rw [hp] at h; cases h
  | some x =>
    rw [hp] at h
    obtain ⟨r1, a1⟩ := x
    simp only [Option.some.injEq, Prod.mk.injEq] at h
    obtain ⟨hr, ha⟩ := h
    subst ha
    exact ⟨r1, rfl, hr.symm⟩

theorem ws_dropW {α : Type} (p : Parser α) (input : List Char) :
    ws p (input.dropWhile isMultispace) = ws p input := by
  rw [ws_eq, ws_eq, dropWhile_idem]

theorem alt2_none_left {α : Type} {p q : Parser α} {input : List Char}
    (h : p input = none) : alt2 p q input = q input := by
  unfold alt2; rw [h]

theorem alt2_some_left {α : Type} {p q : Parser α} {input : List Char}
    {r : List Char × α} (h : p input = some r) : alt2 p q input = some r := by
  unfold alt2; rw [h]

theorem alt2_inv {α : Type} {p q : Parser α} {input : List Char}
    {r : List Char × α} (h : alt2 p q input = some r) :
    p input = some r ∨ (p input = none ∧ q input = some r) := by
  cases hp : p input with
  | none => exact Or.inr ⟨rfl, (alt2_none_left hp).symm.trans h⟩
  | some x => exact Or.inl ((alt2_some_left hp).symm.trans h)

theorem alt2_congr_right {α : Type} {p q q' : Parser α} {input : List Char}
    (h : q input = q' input) : alt2 p q input = alt2 p q' input := by
  unfold alt2
  cases p input <;> simp [h]

theorem tagP_some {s input rest out : List Char}
    (h : tagP s input = some (rest, out)) : out = s ∧ input = s ++ rest := by
  unfold tagP at h
  split at h
  · next hpre =>
    have hp : s <+: input := by rwa [← List.isPrefixOf_iff_prefix]
    obtain ⟨t, ht⟩ := hp
    simp only [Option.some.injEq, Prod.mk.injEq] at h
    have hdrop : input.drop s.length = t := by rw [← ht, List.drop_left]
    refine ⟨h.2.symm, ?_⟩
    rw [← ht, ← h.1, hdrop]
  · cases h

theorem tagP_nil {s : List Char} (hs : s ≠ []) : tagP s [] = none := by
  cases h2 : tagP s [] with
  | none => rfl
  | some r =>
    obtain ⟨r1, r2⟩ := r
    obtain ⟨-, heq⟩ := tagP_some h2
    cases s with
    | nil => exact absurd rfl hs
    | cons a as => cases heq

theorem tagP_cons_ne {a : Char} {s : List Char} {c : Char} {l : List Char}
    (h : c ≠ a) : tagP (a :: s) (c :: l) = none := by
  cases h2 : tagP (a :: s) (c :: l) with
  | none => rfl
  | some r =>
    obtain ⟨r1, r2⟩ := r
    obtain ⟨-, heq⟩ := tagP_some h2
    simp only [List.cons_append, List.cons.injEq] at heq
    exact absurd heq.1 h

theorem charP_cons_ne {c x : Char} {xs : List Char} (h : x ≠ c) :
    charP c (x :: xs) = none := by
  unfold charP; simp [h]

theorem fold_many0_stop {α β : Type} {p : Parser α} {init : β}
    {g : β → α → β} {input : List Char} (h : p input = none) :
    fold_many0 p init g input = some (input, init) := by
  simp [fold_many0, foldMany0Aux, h]

theorem foldMany0Aux_step {α β : Type} {p : Parser α} {g : β → α → β}
    {fuel : Nat} {input rest : List Char} {acc : β} {a : α}
    (h : p input = some (rest, a)) (hne : rest.length ≠ input.length) :
    foldMany0Aux p g (fuel + 1) input acc = foldMany0Aux p g fuel rest (g acc a) := by
  simp [foldMany0Aux, h, hne]

theorem tagP_single {a c : Char} {l : List Char} :
    tagP [a] (c :: l) = if c = a then some (l, [a]) else none := by
  unfold tagP
  by_cases h : c = a
  · subst h; simp [List.isPrefixOf]
  · simp [List.isPrefixOf, h, Ne.symm h]

theorem tagP_some_len {s input rest out : List Char}
    (h : tagP s input = some (rest, out)) :
    input.length = s.length + rest.length := by
  obtain ⟨-, heq⟩ := tagP_some h
  rw [heq, List.length_append]

theorem foldHat_total :
    ∀ (fuel : Nat) (input : List Char) (acc : Expr), input.length < fuel →
      ∃ rb, foldMany0Aux (tagP ['^']) conjStep fuel input acc = some rb := by
  intro fuel
  induction fuel with
  | zero => intro input acc h; exact absurd h (Nat.not_lt_zero _)
  | succ f ih =>
    intro input acc h
    cases hp : tagP ['^'] input with
    | none => exact ⟨(input, acc), by simp [foldMany0Aux, hp]⟩
    | some x =>
      obtain ⟨rest, out⟩ := x
      have hlen := tagP_some_len hp
      have hs : ([('^' : Char)]).length = 1 := rfl
      have hne : rest.length ≠ input.length := by omega
      rw [foldMany0Aux_step hp hne]
      exact ih rest (conjStep acc out) (by omega)

theorem foldHat_total_fold (i1 : List Char) (acc : Expr) :
    ∃ rb, fold_many0 (tagP ['^']) acc conjStep i1 = some rb :=
  foldHat_total (i1.length + 1) i1 acc (Nat.lt_succ_self _)

theorem fold_conj :
    ∀ (k : Nat) (rest : List Char) (acc : Expr), headNotB '^' rest = true →
      fold_many0 (tagP ['^']) acc conjStep (List.replicate k '^' ++ rest) =
        some (rest, conjWrap k acc) := by
  intro k
  induction k with
  | zero =>
    intro rest acc h
    rw [List.replicate_zero, List.nil_append]
    apply fold_many0_stop
    cases rest with
    | nil => exact tagP_nil (by simp)
    | cons c l =>
      have hc : c ≠ '^' := by simpa [headNotB] using h
      exact tagP_cons_ne hc
  | succ k ih =>
    intro rest acc h
    rw [List.replicate_succ, List.cons_append]
    unfold fold_many0
    have hp : tagP ['^'] ('^' :: (List.replicate k '^' ++ rest)) =
        some (List.replicate k '^' ++ rest, ['^']) := by
      rw [tagP_single, if_pos rfl]
    have hne : (List.replicate k '^' ++ rest).length ≠
        ('^' :: (List.replicate k '^' ++ rest)).length := by
      simp
    have hL : ('^' :: (List.replicate k '^' ++ rest)).length =
        (List.replicate k '^' ++ rest).length + 1 := by simp
    rw [hL, foldMany0Aux_step hp hne]
    exact ih rest (conjStep acc ['^']) h

theorem alt2_input_eq {α : Type} {p q : Parser α} {i j : List Char}
    (hp : p i = p j) (hq : q i = q j) : alt2 p q i = alt2 p q j := by
  unfold alt2; rw [hp, hq]

theorem bf_dropW (n : Nat) (input : List Char) :
    basic_factor n (input.dropWhile isMultispace) = basic_factor n input := by
  cases n with
  | zero => rfl
  | succ m =>
    show run (m + 1) Rule.basicFactorR _ = run (m + 1) Rule.basicFactorR _
    simp only [run]
    refine alt2_input_eq (ws_dropW _ input) ?_
    refine alt2_input_eq (ws_dropW _ input) ?_
    refine alt2_input_eq (ws_dropW _ input) ?_
    refine alt2_input_eq (ws_dropW _ input) ?_
    refine alt2_input_eq (ws_dropW _ input) ?_
    exact ws_dropW (delimited (tagP ['(']) (run m Rule.expressionR) (tagP [')'])) input

theorem conjFrom_none_inv {bf : Parser Expr} {i : List Char}
    (h : conjFrom bf i = none) : bf i = none := by
  cases hb : bf i with
  | none => rfl
  | some x =>
    obtain ⟨i1, init⟩ := x
    obtain ⟨rb, hrb⟩ := foldHat_total_fold i1 init
    have hc : conjFrom bf i = some rb := by
      unfold conjFrom; rw [hb]; exact hrb
    rw [hc] at h
    cases h

/-- C3: whenever the base atom parser succeeds with AST `a`, leaving exactly
`k ≥ 0` consecutive `^` marks (then input that starts with no further mark),
the factor parser succeeds, consumes the atom and all `k` marks (plus any
whitespace around them, which the whitespace-wrapping of the conjugate fold
always consumes), and returns `a` wrapped in `k` nested unary operator
nodes; for `k = 0`, `conjWrap 0 a = a`, the bare atom unchanged. -/
theorem c3_conj_fold (n k : Nat) (input rest : List Char) (a : Expr)
    (hbf : basic_factor n input = some (List.replicate k '^' ++ rest, a))
    (hrest : headNotB '^' rest = true) :
    factor (n + 1) input = some (rest.dropWhile isMultispace, conjWrap k a) := by
  show run (n + 1) Rule.factorR input = _
  simp only [run]
  apply alt2_some_left
  apply ws_some
  have hb : run n Rule.basicFactorR (input.dropWhile isMultispace) =
      some (List.replicate k '^' ++ rest, a) :=
    (bf_dropW n input).trans hbf
  unfold conjFrom
  rw [hb]
  exact fold_conj k rest a hrest

/-- C3 witness: a concrete instance, `3^^` with `k = 2`. -/
theorem c3_conj_fold_witness :
    factor 7 ("3^^".toList) =
      some ([], conjWrap 2 (Expr.Value ⟨3, 0⟩)) := by
  have h := c3_conj_fold 6 2 ("3^^".toList) [] (Expr.Value ⟨3, 0⟩) (by decide) (by decide)
  simpa using h

/-- C8: the bare-base-factor alternative inside `factor` is unreachable: for
every fuel and every input, `factor` computes exactly the same outcome
(failure, or remaining input plus AST) as the whitespace-wrapped conjugate
fold alone. -/
theorem c8_dead_alternative :
    ∀ (n : Nat) (input : List Char),
      factor (n + 1) input = ws (conjFrom (basic_factor n)) input := by
  intro n input
  show run (n + 1) Rule.factorR input = _
  simp only [run]
  cases hw : ws (conjFrom (run n Rule.basicFactorR)) input with
  | some r => rw [alt2_some_left hw]; exact hw.symm
  | none =>
    rw [alt2_none_left hw]
    have h1 : conjFrom (run n Rule.basicFactorR) (input.dropWhile isMultispace) = none := by
      cases hc : conjFrom (run n Rule.basicFactorR) (input.dropWhile isMultispace) with
      | none => rfl
      | some x =>
        obtain ⟨r1, a1⟩ := x
        rw [ws_some _ _ _ _ hc] at hw
        cases hw
    have h2 : run n Rule.basicFactorR (input.dropWhile isMultispace) = none :=
      conjFrom_none_inv h1
    have h3 : basic_factor n input = none := (bf_dropW n input).symm.trans h2
    exact h3.trans hw.symm

/-! ### The literal lexer on digit runs -/

theorem digit_char_facts (c : Char) (h : digits.contains c = true) :
    c.isAlpha = false ∧ isMultispace c = false ∧ c ≠ '_' ∧ c ≠ 'i' := by
  have hm : c ∈ digits := by simpa using h
  have hd : digits = ['0', '1', '2', '3', '4', '5', '6', '7', '8', '9'] := rfl
  rw [hd] at hm
  fin_cases hm <;> exact ⟨by decide, by decide, by decide, by decide⟩

theorem allDigits_cons {d : Char} {l : List Char} (h : allDigits (d :: l) = true) :
    digits.contains d = true ∧ allDigits l = true := by
  simpa [allDigits, List.all_cons, Bool.and_eq_true] using h

theorem dropW_cons_nospace {c : Char} {l : List Char} (h : isMultispace c = false) :
    (c :: l).dropWhile isMultispace = c :: l := by
  simp [List.dropWhile_cons, h]

theorem decRun_cons {d : Char} {t : List Char} (hd : digits.contains d = true)
    (ht : headNotB '_' t = true) : decRun (d :: t) = some (t, d) := by
  have hm : d ∈ digits := by simpa using hd
  have h1 : one_of digits (d :: t) = some (t, d) := by simp [one_of, hm]
  have h2 : tagP ['_'] t = none := by
    cases t with
    | nil => exact tagP_nil (by simp)
    | cons c l => exact tagP_cons_ne (by simpa [headNotB] using ht)
  have h3 : many0_ (tagP ['_']) t = some (t, ()) := fold_many0_stop h2
  simp [decRun, terminated, h1, h3]

theorem decRun_stop {rest : List Char} (h : stopsRun rest = true) :
    decRun rest = none := by
  cases rest with
  | nil => simp [decRun, terminated, one_of]
  | cons c l =>
    have hc : c ∉ digits := by
      revert h
      simp [stopsRun, Bool.and_eq_true]
      intro h1 _
      exact by simpa using h1
    simp [decRun, terminated, one_of, hc]

theorem many0_decRun : ∀ (ds rest : List Char), allDigits ds = true →
    stopsRun rest = true → many0_ decRun (ds ++ rest) = some (rest, ()) := by
  intro ds
  induction ds with
  | nil =>
    intro rest _ hrest
    rw [List.nil_append]
    exact fold_many0_stop (decRun_stop hrest)
  | cons d ds' ih =>
    intro rest hds hrest
    obtain ⟨hd, hds'⟩ := allDigits_cons hds
    have hht : headNotB '_' (ds' ++ rest) = true := by
      cases ds' with
      | nil =>
        rw [List.nil_append]
        cases rest with
        | nil => rfl
        | cons c l =>
          revert hrest
          simp [stopsRun, headNotB, Bool.and_eq_true]
      | cons e l =>
        have he : digits.contains e = true := (allDigits_cons hds').1
        have hne : e ≠ '_' := (digit_char_facts e he).2.2.1
        simp [headNotB, hne]
    have hstep : decRun (d :: (ds' ++ rest)) = some (ds' ++ rest, d) := decRun_cons hd hht
    rw [List.cons_append]
    unfold many0_ fold_many0
    have hlen : (d :: (ds' ++ rest)).length = (ds' ++ rest).length + 1 := by simp
    have hne2 : (ds' ++ rest).length ≠ (d :: (ds' ++ rest)).length := by
      simp only [List.length_cons]
      omega
    rw [hlen, foldMany0Aux_step hstep hne2]
    exact ih rest hds' hrest

theorem decimal_run (ds rest : List Char) (hne : ds ≠ []) (hds : allDigits ds = true)
    (hrest : stopsRun rest = true) : decimal (ds ++ rest) = some (rest, ds) := by
  cases ds with
  | nil => exact absurd rfl hne
  | cons d ds' =>
    obtain ⟨hd, hds'⟩ := allDigits_cons hds
    have hht : headNotB '_' (ds' ++ rest) = true := by
      cases ds' with
      | nil =>
        rw [List.nil_append]
        cases rest with
        | nil => rfl
        | cons c l =>
          revert hrest
          simp [stopsRun, headNotB, Bool.and_eq_true]
      | cons e l =>
        have he : digits.contains e = true := (allDigits_cons hds').1
        have hne2 : e ≠ '_' := (digit_char_facts e he).2.2.1
        simp [headNotB, hne2]
    have h1 : many1_ decRun ((d :: ds') ++ rest) = some (rest, ()) := by
      rw [List.cons_append]
      unfold many1_
      rw [decRun_cons hd hht]
      exact many0_decRun ds' rest hds' hrest
    unfold decimal recognize
    rw [h1]
    show some (rest, ((d :: ds') ++ rest).take (((d :: ds') ++ rest).length - rest.length)) =
      some (rest, d :: ds')
    have hlen2 : ((d :: ds') ++ rest).length - rest.length = (d :: ds').length := by
      rw [List.length_append]
      omega
    rw [hlen2, List.take_left]

theorem parseI64_digits (ds : List Char) (hne : ds ≠ []) (hds : allDigits ds = true)
    (hmax : natVal ds ≤ i64Max) : parseI64 ds = some (Int.ofNat (natVal ds)) := by
  have hemp : ds.isEmpty = false := by simp [List.isEmpty_iff, hne]
  have hall : (ds.all fun c => digits.contains c) = true := hds
  unfold parseI64
  rw [hemp, hall]
  simp [hmax]

theorem pmap_none {α β : Type} {f : α → β} {p : Parser α} {input : List Char}
    (h : p input = none) : pmap f p input = none := by
  simp [pmap, h]

theorem value_digits (ds : List Char) (hne : ds ≠ []) (hds : allDigits ds = true)
    (hmax : natVal ds ≤ i64Max) :
    value ds = some ([], Expr.Value ⟨Int.ofNat (natVal ds), 0⟩) := by
  have hdec : decimal ds = some ([], ds) := by
    have h := decimal_run ds [] hne hds (by decide)
    rwa [List.append_nil] at h
  have himag : imag ds = none := by
    have hopt : opt decimal ds = some ([], some ds) := by simp [opt, hdec]
    have hrec : recognize (opt decimal) ds = some ([], ds) := by
      unfold recognize
      rw [hopt]
      show some ([], ds.take (ds.length - ([] : List Char).length)) = some ([], ds)
      simp
    have htag : tagP ['i'] ([] : List Char) = none := tagP_nil (by simp)
    simp [imag, map_res, terminated, hrec, htag]
  have hreal : real ds = some ([], Expr.Value ⟨Int.ofNat (natVal ds), 0⟩) := by
    simp [real, map_res, hdec, parseI64_digits ds hne hds hmax]
  show alt2 imag real ds = _
  rw [alt2_none_left himag]
  exact hreal

theorem value_digits_i (ds : List Char) (hne : ds ≠ []) (hds : allDigits ds = true)
    (hmax : natVal ds ≤ i64Max) :
    value (ds ++ ['i']) = some ([], Expr.Value ⟨0, Int.ofNat (natVal ds)⟩) := by
  have hdec : decimal (ds ++ ['i']) = some (['i'], ds) :=
    decimal_run ds ['i'] hne hds (by decide)
  have himag : imag (ds ++ ['i']) = some ([], Expr.Value ⟨0, Int.ofNat (natVal ds)⟩) := by
    have hopt : opt decimal (ds ++ ['i']) = some (['i'], some ds) := by simp [opt, hdec]
    have hrec : recognize (opt decimal) (ds ++ ['i']) = some (['i'], ds) := by
      unfold recognize
      rw [hopt]
      show some (['i'], (ds ++ ['i']).take ((ds ++ ['i']).length - (['i'] : List Char).length)) =
        some (['i'], ds)
      have hlen : (ds ++ ['i']).length - (['i'] : List Char).length = ds.length := by
        rw [List.length_append]
        omega
      rw [hlen, List.take_left]
    have htag : tagP ['i'] ['i'] = some ([], ['i']) := by
      rw [tagP_single, if_pos rfl]
    have hemp : ds.isEmpty = false := by simp [List.isEmpty_iff, hne]
    simp [imag, map_res, terminated, hrec, htag, hemp, parseI64_digits ds hne hds hmax]
  show alt2 imag real (ds ++ ['i']) = _
  exact alt2_some_left himag

/-! ### From a successful atom to the expression entry point -/

theorem factor_def (n : Nat) : run n Rule.factorR = factor n := rfl

theorem basic_factor_def (n : Nat) : run n Rule.basicFactorR = basic_factor n := rfl

theorem expression_def (n : Nat) : run n Rule.expressionR = expression n := rfl

theorem equality_def (n : Nat) : run n Rule.equalityR = equality n := rfl

theorem expr_def (n : Nat) : run n Rule.exprR = expr n := rfl

theorem term_def (n : Nat) : run n Rule.termR = term n := rfl

theorem identifier_head_fail {c : Char} {l : List Char} (h1 : c.isAlpha = false)
    (h2 : c ≠ '_') : identifier (c :: l) = none := by
  have ha : alpha1 (c :: l) = none := by
    simp [alpha1, List.takeWhile_cons, h1]
  have ht : tagP ['_'] (c :: l) = none := tagP_cons_ne h2
  have hcore : identifier_core (c :: l) = none := by
    simp [identifier_core, recognize, pair, alt2, ha, ht]
  simp [identifier, verify, hcore]

theorem ifElseFrom_tag_fail {e : Parser Expr} {input : List Char}
    (h : tagP ("if".toList) input = none) : ifElseFrom e input = none := by
  have h2 : tagP ['i', 'f'] input = none := h
  simp [ifElseFrom, pmap, preceded, h2]

theorem bf_value (n : Nat) (input r : List Char) (v : Expr)
    (hd : headDigit input = true) (hv : value input = some (r, v)) :
    basic_factor (n + 1) input = some (r.dropWhile isMultispace, v) := by
  obtain ⟨c, l, rfl⟩ : ∃ c l, input = c :: l := by
    cases input with
    | nil => cases hd
    | cons c l => exact ⟨c, l, rfl⟩
  have hc : digits.contains c = true := by simpa [headDigit] using hd
  obtain ⟨halpha, hspace, hund, hi⟩ := digit_char_facts c hc
  have hdw : (c :: l).dropWhile isMultispace = c :: l := dropW_cons_nospace hspace
  show run (n + 1) Rule.basicFactorR (c :: l) = _
  simp only [run]
  rw [alt2_none_left (ws_none _ _ (by rw [hdw]; exact pmap_none (identifier_head_fail halpha hund)))]
  rw [alt2_none_left (ws_none _ _ (by rw [hdw]; exact ifElseFrom_tag_fail (tagP_cons_ne hi)))]
  exact alt2_some_left (ws_some _ _ _ _ (by rw [hdw]; exact hv))

theorem factor_full (n : Nat) (input : List Char) (v : Expr)
    (hbf : basic_factor n input = some ([], v))
    (hdw : input.dropWhile isMultispace = input) :
    factor (n + 1) input = some ([], v) := by
  show run (n + 1) Rule.factorR input = _
  simp only [run]
  apply alt2_some_left
  have hconj : conjFrom (run n Rule.basicFactorR) input = some ([], v) := by
    unfold conjFrom
    rw [basic_factor_def, hbf]
    exact fold_many0_stop (tagP_nil (by simp))
  have := ws_some (conjFrom (run n Rule.basicFactorR)) input [] v (by rw [hdw]; exact hconj)
  simpa using this

theorem term_full (n : Nat) (input : List Char) (v : Expr)
    (h : factor n input = some ([], v)) : term (n + 1) input = some ([], v) := by
  show run (n + 1) Rule.termR input = _
  simp only [run]
  rw [factor_def, h]
  have hin : pair (alt2 (charP '*') (alt2 (charP '/') (charP '%'))) (run n Rule.factorR)
      ([] : List Char) = none := by
    simp [pair, alt2, charP]
  exact fold_many0_stop hin

theorem expr_full (n : Nat) (input : List Char) (v : Expr)
    (h : term n input = some ([], v)) : expr (n + 1) input = some ([], v) := by
  show run (n + 1) Rule.exprR input = _
  simp only [run]
  rw [term_def, h]
  have hin : pair (alt2 (charP '+') (charP '-')) (run n Rule.termR)
      ([] : List Char) = none := by
    simp [pair, alt2, charP]
  exact fold_many0_stop hin

theorem equality_full (n : Nat) (input : List Char) (v : Expr)
    (h : expr n input = some ([], v)) : equality (n + 1) input = some ([], v) := by
  show run (n + 1) Rule.equalityR input = _
  simp only [run]
  rw [expr_def, h]
  have hin : pair (alt2 (tagP ("==".toList)) (tagP ("!=".toList))) (run n Rule.exprR)
      ([] : List Char) = none := by
    have h1 : tagP ['=', '='] ([] : List Char) = none := tagP_nil (by decide)
    have h2 : tagP ['!', '='] ([] : List Char) = none := tagP_nil (by decide)
    simp [pair, alt2, h1, h2]
  exact fold_many0_stop hin

theorem expression_full (n : Nat) (input : List Char) (v : Expr)
    (h : equality n input = some ([], v))
    (hdw : input.dropWhile isMultispace = input) :
    expression (n + 1) input = some ([], v) := by
  show run (n + 1) Rule.expressionR input = _
  simp only [run]
  have := ws_some (run n Rule.equalityR) input [] v (by rw [hdw, equality_def]; exact h)
  simpa using this

theorem expression_of_bf (n : Nat) (input : List Char) (v : Expr)
    (hbf : basic_factor (n + 1) input = some ([], v))
    (hdw : input.dropWhile isMultispace = input) :
    expression (n + 6) input = some ([], v) :=
  expression_full (n + 5) input v
    (equality_full (n + 4) input v
      (expr_full (n + 3) input v
        (term_full (n + 2) input v
          (factor_full (n + 1) input v hbf hdw)))) hdw

/-- C1: for every digit run without separator underscores whose value fits in
a signed 64-bit integer, the expression entry point parses its text to
`Value(ComplexInt(n, 0))`, its text followed by `i` to
`Value(ComplexInt(0, n))`, and the bare character `i` to
`Value(ComplexInt(0, 1))`, in each case consuming the whole input. -/
theorem c1_literal_parses (k : Nat) (ds : List Char) (h1 : ds ≠ [])
    (h2 : allDigits ds = true) (h3 : natVal ds ≤ i64Max) :
    expression (k + 6) ds = some ([], Expr.Value ⟨Int.ofNat (natVal ds), 0⟩) ∧
    expression (k + 6) (ds ++ ['i']) = some ([], Expr.Value ⟨0, Int.ofNat (natVal ds)⟩) ∧
    expression (k + 6) ['i'] = some ([], Expr.Value ⟨0, 1⟩) := by
  obtain ⟨d, l, rfl⟩ : ∃ d l, ds = d :: l := by
    cases ds with
    | nil => exact absurd rfl h1
    | cons d l => exact ⟨d, l, rfl⟩
  have hc : digits.contains d = true := (allDigits_cons h2).1
  have hm : d ∈ digits := by simpa using hc
  have hspace : isMultispace d = false := (digit_char_facts d hc).2.1
  refine ⟨?_, ?_, ?_⟩
  · have hv := value_digits (d :: l) h1 h2 h3
    have hbf := bf_value k (d :: l) [] _ (by simp [headDigit, hm]) hv
    exact expression_of_bf k (d :: l) _ hbf (dropW_cons_nospace hspace)
  · have hv := value_digits_i (d :: l) h1 h2 h3
    have hd2 : headDigit ((d :: l) ++ ['i']) = true := by
      rw [List.cons_append]
      simp [headDigit, hm]
    have hbf := bf_value k ((d :: l) ++ ['i']) [] _ hd2 hv
    have hdw : ((d :: l) ++ ['i']).dropWhile isMultispace = (d :: l) ++ ['i'] := by
      rw [List.cons_append]
      exact dropW_cons_nospace hspace
    exact expression_of_bf k ((d :: l) ++ ['i']) _ hbf hdw
  · have hbf3 : basic_factor (k + 1) ['i'] = some ([], Expr.Value ⟨0, 1⟩) := by
      show run (k + 1) Rule.basicFactorR ['i'] = _
      simp only [run]
      rw [alt2_none_left (by decide : ws identifier_expr ['i'] = none)]
      rw [alt2_none_left (ws_none _ _ (ifElseFrom_tag_fail (by decide)))]
      exact alt2_some_left (by decide : ws value ['i'] = some ([], Expr.Value ⟨0, 1⟩))
    exact expression_of_bf k ['i'] _ hbf3 (by decide)

/-- C1 witness: the digit run `7`. -/
theorem c1_literal_parses_witness :
    expression 6 ("7".toList) = some ([], Expr.Value ⟨Int.ofNat (natVal ("7".toList)), 0⟩) ∧
    expression 6 ("7".toList ++ ['i']) =
      some ([], Expr.Value ⟨0, Int.ofNat (natVal ("7".toList))⟩) ∧
    expression 6 ['i'] = some ([], Expr.Value ⟨0, 1⟩) :=
  c1_literal_parses 0 ("7".toList) (by decide) (by decide) (by decide)

/-! ### Length accounting and conversion failure -/

theorem tagP_le {s input rest out : List Char} (h : tagP s input = some (rest, out)) :
    rest.length ≤ input.length := by
  have := tagP_some_len h
  omega

theorem one_of_some {s i i1 : List Char} {c : Char} (h : one_of s i = some (i1, c)) :
    i = c :: i1 := by
  cases i with
  | nil => exact absurd h (by simp [one_of])
  | cons x xs =>
    by_cases hx : x ∈ s
    · have hs : one_of s (x :: xs) = some (xs, x) := by simp [one_of, hx]
      rw [hs] at h
      simp only [Option.some.injEq, Prod.mk.injEq] at h
      rw [h.1, h.2]
    · have hs : one_of s (x :: xs) = none := by simp [one_of, hx]
      rw [hs] at h
      cases h

theorem foldAux_le {α β : Type} {p : Parser α} {g : β → α → β}
    (hp : ∀ i r a, p i = some (r, a) → r.length ≤ i.length) :
    ∀ (fuel : Nat) (input : List Char) (acc : β) (rest : List Char) (b : β),
      foldMany0Aux p g fuel input acc = some (rest, b) → rest.length ≤ input.length := by
  intro fuel
  induction fuel with
  | zero => intro input acc rest b h; cases h
  | succ f ih =>
    intro input acc rest b h
    cases hp1 : p input with
    | none =>
      have hstop : foldMany0Aux p g (f + 1) input acc = some (input, acc) := by
        simp [foldMany0Aux, hp1]
      rw [hstop] at h
      simp only [Option.some.injEq, Prod.mk.injEq] at h
      rw [← h.1]
    | some x =>
      obtain ⟨r1, a1⟩ := x
      by_cases he : r1.length = input.length
      · have : foldMany0Aux p g (f + 1) input acc = none := by
          simp [foldMany0Aux, hp1, he]
        rw [this] at h
        cases h
      · rw [foldMany0Aux_step hp1 he] at h
        have h2 := ih r1 (g acc a1) rest b h
        have h3 := hp input r1 a1 hp1
        omega

theorem many0_le {α : Type} {p : Parser α}
    (hp : ∀ i r a, p i = some (r, a) → r.length ≤ i.length)
    {input rest : List Char} {u : Unit} (h : many0_ p input = some (rest, u)) :
    rest.length ≤ input.length :=
  foldAux_le hp (input.length + 1) input () rest u h

theorem decRun_lt {i r : List Char} {c : Char} (h : decRun i = some (r, c)) :
    r.length < i.length := by
  unfold decRun terminated at h
  cases h1 : one_of digits i with
  | none => simp only [h1] at h; exact Option.noConfusion h
  | some x =>
    obtain ⟨i1, c1⟩ := x
    simp only [h1] at h
    cases h2 : many0_ (tagP ['_']) i1 with
    | none => simp only [h2] at h; exact Option.noConfusion h
    | some y =>
      obtain ⟨i2, u⟩ := y
      simp only [h2, Option.some.injEq, Prod.mk.injEq] at h
      have hle : i2.length ≤ i1.length :=
        many0_le (fun i r a hh => tagP_le hh) h2
      have hcons : i = c1 :: i1 := one_of_some h1
      rw [← h.1, hcons]
      simp only [List.length_cons]
      omega

theorem many1_decRun_lt {i r : List Char} {u : Unit}
    (h : many1_ decRun i = some (r, u)) : r.length < i.length := by
  unfold many1_ at h
  cases h1 : decRun i with
  | none => simp only [h1] at h; exact Option.noConfusion h
  | some x =>
    obtain ⟨i1, c⟩ := x
    simp only [h1] at h
    have h2 : r.length ≤ i1.length :=
      many0_le (fun i r a hh => Nat.le_of_lt (decRun_lt hh)) h
    have h3 : i1.length < i.length := decRun_lt h1
    omega

theorem decimal_inv {input rest ds : List Char} (h : decimal input = some (rest, ds)) :
    ds = input.take (input.length - rest.length) ∧
    many1_ decRun input = some (rest, ()) := by
  unfold decimal recognize at h
  cases h1 : many1_ decRun input with
  | none => simp only [h1] at h; exact Option.noConfusion h
  | some x =>
    obtain ⟨r1, u⟩ := x
    simp only [h1, Option.some.injEq, Prod.mk.injEq] at h
    obtain ⟨hr, hd⟩ := h
    subst hr
    cases u
    exact ⟨hd.symm, rfl⟩

theorem value_conv_fail (input ds rest : List Char)
    (hdec : decimal input = some (rest, ds)) (hconv : parseI64 ds = none) :
    value input = none := by
  obtain ⟨hds, hmany⟩ := decimal_inv hdec
  have hlt : rest.length < input.length := many1_decRun_lt hmany
  have hne : ds ≠ [] := by
    rw [hds]
    intro hnil
    have hlen := congrArg List.length hnil
    have h0 : min (input.length - rest.length) input.length = 0 := by
      simpa [List.length_take] using hlen
    omega
  have hreal : real input = none := by
    simp [real, map_res, hdec, hconv]
  have himag : imag input = none := by
    have hopt : opt decimal input = some (rest, some ds) := by simp [opt, hdec]
    have hrec : recognize (opt decimal) input = some (rest, ds) := by
      unfold recognize
      rw [hopt]
      show some (rest, input.take (input.length - rest.length)) = some (rest, ds)
      rw [← hds]
    unfold imag map_res terminated
    simp only [hrec]
    cases h2 : tagP ['i'] rest with
    | none => simp [h2]
    | some y =>
      obtain ⟨r2, o2⟩ := y
      have hemp : ds.isEmpty = false := by simp [List.isEmpty_iff, hne]
      simp [h2, hemp, hconv]
  show alt2 imag real input = none
  rw [alt2_none_left himag]
  exact hreal

theorem bf_skips_value (n : Nat) (input : List Char)
    (hval : value (input.dropWhile isMultispace) = none) :
    basic_factor (n + 1) input =
      alt2 (ws identifier_expr)
        (alt2 (ws (ifElseFrom (expression n)))
          (alt2 (ws (modulusFrom (expression n)))
            (alt2 (ws (negateFrom (factor n))) (parensFrom (expression n))))) input := by
  show run (n + 1) Rule.basicFactorR input = _
  simp only [run]
  apply alt2_congr_right
  apply alt2_congr_right
  exact alt2_none_left (ws_none _ _ hval)

/-- C7: a matched digit run that fails `i64` conversion (embedded grouping
underscores, which are not stripped, or overflow) makes the numeric-literal
alternative fail as an ordinary recoverable failure (the only failure kind in
the model, as in the source, which never uses a fatal `cut`), and
`basic_factor` then behaves exactly as the alternative chain with the literal
removed: the sibling alternatives are tried at the same position. -/
theorem c7_conversion_failure :
    (∀ input ds rest, decimal input = some (rest, ds) → parseI64 ds = none →
      value input = none) ∧
    (∀ n input, value (input.dropWhile isMultispace) = none →
      basic_factor (n + 1) input =
        alt2 (ws identifier_expr)
          (alt2 (ws (ifElseFrom (expression n)))
            (alt2 (ws (modulusFrom (expression n)))
              (alt2 (ws (negateFrom (factor n))) (parensFrom (expression n))))) input) :=
  ⟨fun input ds rest h1 h2 => value_conv_fail input ds rest h1 h2, bf_skips_value⟩

/-- C7 witness: the literal text `1_2` (embedded underscore). -/
theorem c7_conversion_failure_witness :
    value ("1_2".toList) = none ∧
    basic_factor 4 ("1_2".toList) =
      alt2 (ws identifier_expr)
        (alt2 (ws (ifElseFrom (expression 3)))
          (alt2 (ws (modulusFrom (expression 3)))
            (alt2 (ws (negateFrom (factor 3))) (parensFrom (expression 3))))) ("1_2".toList) :=
  ⟨c7_conversion_failure.1 ("1_2".toList) ("1_2".toList) [] (by decide) (by decide),
   c7_conversion_failure.2 3 ("1_2".toList) (by decide)⟩

/-! ### Inversion lemmas for the grammar invariants -/

theorem pmap_inv {α β : Type} {f : α → β} {p : Parser α} {input rest : List Char}
    {b : β} (h : pmap f p input = some (rest, b)) :
    ∃ a, p input = some (rest, a) ∧ b = f a := by
  unfold pmap at h
  cases hp : p input with
  | none => simp only [hp] at h; exact Option.noConfusion h
  | some x =>
    obtain ⟨r1, a⟩ := x
    simp only [hp, Option.some.injEq, Prod.mk.injEq] at h
    obtain ⟨hr, hb⟩ := h
    subst hr
    exact ⟨a, rfl, hb.symm⟩

theorem map_res_inv {α β : Type} {p : Parser α} {f : α → Option β}
    {input rest : List Char} {b : β} (h : map_res p f input = some (rest, b)) :
    ∃ a, p input = some (rest, a) ∧ f a = some b := by
  unfold map_res at h
  cases hp : p input with
  | none => simp only [hp] at h; exact Option.noConfusion h
  | some x =>
    obtain ⟨r1, a⟩ := x
    simp only [hp] at h
    cases hf : f a with
    | none => simp only [hf] at h; exact Option.noConfusion h
    | some b1 =>
      simp only [hf, Option.some.injEq, Prod.mk.injEq] at h
      refine ⟨a, by rw [h.1], hf.trans ?_⟩
      rw [h.2]

theorem verify_inv {α : Type} {f : α → Bool} {p : Parser α} {input rest : List Char}
    {a : α} (h : verify f p input = some (rest, a)) :
    p input = some (rest, a) ∧ f a = true := by
  unfold verify at h
  cases hp : p input with
  | none => simp only [hp] at h; exact Option.noConfusion h
  | some x =>
    obtain ⟨r1, a1⟩ := x
    simp only [hp] at h
    by_cases hf : f a1 = true
    · rw [if_pos hf] at h
      simp only [Option.some.injEq, Prod.mk.injEq] at h
      obtain ⟨hr, ha⟩ := h
      subst hr
      subst ha
      exact ⟨rfl, hf⟩
    · rw [if_neg hf] at h
      exact Option.noConfusion h

theorem pair_inv {α β : Type} {p : Parser α} {q : Parser β} {input rest : List Char}
    {ab : α × β} (h : pair p q input = some (rest, ab)) :
    ∃ i1 a b, p input = some (i1, a) ∧ q i1 = some (rest, b) ∧ ab = (a, b) := by
  unfold pair at h
  cases hp : p input with
  | none => simp only [hp] at h; exact Option.noConfusion h
  | some x =>
    obtain ⟨i1, a⟩ := x
    simp only [hp] at h
    cases hq : q i1 with
    | none => simp only [hq] at h; exact Option.noConfusion h
    | some y =>
      obtain ⟨i2, b⟩ := y
      simp only [hq, Option.some.injEq, Prod.mk.injEq] at h
      obtain ⟨hr, hab⟩ := h
      subst hr
      exact ⟨i1, a, b, rfl, hq, hab.symm⟩

theorem preceded_inv {α β : Type} {p : Parser α} {q : Parser β} {input rest : List Char}
    {b : β} (h : preceded p q input = some (rest, b)) :
    ∃ i1 a, p input = some (i1, a) ∧ q i1 = some (rest, b) := by
  unfold preceded at h
  cases hp : p input with
  | none => simp only [hp] at h; exact Option.noConfusion h
  | some x =>
    obtain ⟨i1, a⟩ := x
    simp only [hp] at h
    exact ⟨i1, a, rfl, h⟩

theorem separated_pair_inv {α β γ : Type} {p : Parser α} {s : Parser β} {q : Parser γ}
    {input rest : List Char} {ac : α × γ}
    (h : separated_pair p s q input = some (rest, ac)) :
    ∃ i1 i2 a b c, p input = some (i1, a) ∧ s i1 = some (i2, b) ∧
      q i2 = some (rest, c) ∧ ac = (a, c) := by
  unfold separated_pair at h
  cases hp : p input with
  | none => simp only [hp] at h; exact Option.noConfusion h
  | some x =>
    obtain ⟨i1, a⟩ := x
    simp only [hp] at h
    cases hs : s i1 with
    | none => simp only [hs] at h; exact Option.noConfusion h
    | some y =>
      obtain ⟨i2, b⟩ := y
      simp only [hs] at h
      cases hq : q i2 with
      | none => simp only [hq] at h; exact Option.noConfusion h
      | some z =>
        obtain ⟨i3, c⟩ := z
        simp only [hq, Option.some.injEq, Prod.mk.injEq] at h
        obtain ⟨hr, hac⟩ := h
        subst hr
        exact ⟨i1, i2, a, b, c, rfl, hs, hq, hac.symm⟩

theorem delimited_inv {α β γ : Type} {l : Parser α} {p : Parser β} {r : Parser γ}
    {input rest : List Char} {b : β} (h : delimited l p r input = some (rest, b)) :
    ∃ i1 x i2 y, l input = some (i1, x) ∧ p i1 = some (i2, b) ∧
      r i2 = some (rest, y) := by
  unfold delimited at h
  cases hl : l input with
  | none => simp only [hl] at h; exact Option.noConfusion h
  | some x0 =>
    obtain ⟨i1, x⟩ := x0
    simp only [hl] at h
    cases hp : p i1 with
    | none => simp only [hp] at h; exact Option.noConfusion h
    | some y0 =>
      obtain ⟨i2, b1⟩ := y0
      simp only [hp] at h
      cases hr : r i2 with
      | none => simp only [hr] at h; exact Option.noConfusion h
      | some z0 =>
        obtain ⟨i3, y⟩ := z0
        simp only [hr, Option.some.injEq, Prod.mk.injEq] at h
        obtain ⟨h1, h2⟩ := h
        subst h1
        subst h2
        exact ⟨i1, x, i2, y, rfl, hp, hr⟩

theorem recognize_inv {α : Type} {p : Parser α} {input rest s : List Char}
    (h : recognize p input = some (rest, s)) :
    s = input.take (input.length - rest.length) ∧ ∃ a, p input = some (rest, a) := by
  unfold recognize at h
  cases hp : p input with
  | none => simp only [hp] at h; exact Option.noConfusion h
  | some x =>
    obtain ⟨r1, a⟩ := x
    simp only [hp, Option.some.injEq, Prod.mk.injEq] at h
    obtain ⟨hr, hs⟩ := h
    subst hr
    exact ⟨hs.symm, a, rfl⟩

theorem value_shape {input rest : List Char} {e : Expr}
    (h : value input = some (rest, e)) : ∃ v, e = Expr.Value v := by
  rcases alt2_inv h with h1 | ⟨-, h1⟩
  · obtain ⟨a, -, hf⟩ := map_res_inv h1
    split at hf
    · simp only [Option.some.injEq] at hf
      exact ⟨⟨0, 1⟩, hf.symm⟩
    · cases hp : parseI64 a with
      | none =>
        simp only [hp, Option.map_none'] at hf
        exact Option.noConfusion hf
      | some v =>
        simp only [hp, Option.map_some', Option.some.injEq] at hf
        exact ⟨⟨0, v⟩, hf.symm⟩
  · obtain ⟨a, -, hf⟩ := map_res_inv h1
    cases hp : parseI64 a with
    | none =>
      simp only [hp, Option.map_none'] at hf
      exact Option.noConfusion hf
    | some v =>
      simp only [hp, Option.map_some', Option.some.injEq] at hf
      exact ⟨⟨v, 0⟩, hf.symm⟩

theorem foldAux_inv {α β : Type} {p : Parser α} {g : β → α → β}
    (P : β → Prop) (Q : α → Prop)
    (hp : ∀ i r a, p i = some (r, a) → Q a)
    (hg : ∀ b a, P b → Q a → P (g b a)) :
    ∀ (fuel : Nat) (input : List Char) (acc : β) (rest : List Char) (b : β),
      foldMany0Aux p g fuel input acc = some (rest, b) → P acc → P b := by
  intro fuel
  induction fuel with
  | zero => intro input acc rest b h _; exact Option.noConfusion h
  | succ f ih =>
    intro input acc rest b h hacc
    cases hp1 : p input with
    | none =>
      have hstop : foldMany0Aux p g (f + 1) input acc = some (input, acc) := by
        simp [foldMany0Aux, hp1]
      rw [hstop] at h
      simp only [Option.some.injEq, Prod.mk.injEq] at h
      rw [← h.2]
      exact hacc
    | some x =>
      obtain ⟨r1, a1⟩ := x
      by_cases he : r1.length = input.length
      · have hnone : foldMany0Aux p g (f + 1) input acc = none := by
          simp [foldMany0Aux, hp1, he]
        rw [hnone] at h
        exact Option.noConfusion h
      · rw [foldMany0Aux_step hp1 he] at h
        exact ih r1 (g acc a1) rest b h (hg acc a1 hacc (hp input r1 a1 hp1))

/-! ### The grammar-wide invariant induction -/

theorem run_inv (P : Expr → Prop)
    (hval : ∀ v, P (Expr.Value v))
    (hid : ∀ input rest s, identifier input = some (rest, s) → P (Expr.Id s))
    (hbin : ∀ op l r, P l → P r → P (Expr.BinOp op l r))
    (hneg : ∀ e, P e → P (Expr.UnOp UnOp.Negate e))
    (hmod : ∀ e, P e → P (Expr.UnOp UnOp.Modulus e))
    (hif : ∀ c t e, P c → P t → P e → P (Expr.IfElse c t e)) :
    ∀ (n : Nat) (r : Rule) (input rest : List Char) (e : Expr),
      run n r input = some (rest, e) → P e := by
  intro n
  induction n with
  | zero => intro r input rest e h; exact Option.noConfusion h
  | succ m ih =>
    intro r input rest e h
    cases r with
    | expressionR =>
      simp only [run] at h
      obtain ⟨r1, h1, -⟩ := ws_inv h
      exact ih Rule.equalityR _ _ _ h1
    | equalityR =>
      simp only [run] at h
      cases h0 : run m Rule.exprR input with
      | none => simp only [h0] at h; exact Option.noConfusion h
      | some x =>
        obtain ⟨i1, init⟩ := x
        simp only [h0] at h
        have hinit : P init := ih Rule.exprR _ _ _ h0
        refine foldAux_inv P (fun pr => P pr.2) ?_ ?_ (i1.length + 1) i1 init rest e h hinit
        · intro i r a hpa
          obtain ⟨j1, a1, b1, -, hq, hab⟩ := pair_inv hpa
          rw [hab]
          exact ih Rule.exprR _ _ _ hq
        · intro b a hb ha
          exact hbin _ b a.2 hb ha
    | exprR =>
      simp only [run] at h
      cases h0 : run m Rule.termR input with
      | none => simp only [h0] at h; exact Option.noConfusion h
      | some x =>
        obtain ⟨i1, init⟩ := x
        simp only [h0] at h
        have hinit : P init := ih Rule.termR _ _ _ h0
        refine foldAux_inv P (fun pr => P pr.2) ?_ ?_ (i1.length + 1) i1 init rest e h hinit
        · intro i r a hpa
          obtain ⟨j1, a1, b1, -, hq, hab⟩ := pair_inv hpa
          rw [hab]
          exact ih Rule.termR _ _ _ hq
        · intro b a hb ha
          exact hbin _ b a.2 hb ha
    | termR =>
      simp only [run] at h
      cases h0 : run m Rule.factorR input with
      | none => simp only [h0] at h; exact Option.noConfusion h
      | some x =>
        obtain ⟨i1, init⟩ := x
        simp only [h0] at h
        have hinit : P init := ih Rule.factorR _ _ _ h0
        refine foldAux_inv P (fun pr => P pr.2) ?_ ?_ (i1.length + 1) i1 init rest e h hinit
        · intro i r a hpa
          obtain ⟨j1, a1, b1, -, hq, hab⟩ := pair_inv hpa
          rw [hab]
          exact ih Rule.factorR _ _ _ hq
        · intro b a hb ha
          exact hbin _ b a.2 hb ha
    | factorR =>
      simp only [run] at h
      rcases alt2_inv h with h1 | ⟨-, h1⟩
      · obtain ⟨r1, h2, -⟩ := ws_inv h1
        unfold conjFrom at h2
        cases h3 : run m Rule.basicFactorR (input.dropWhile isMultispace) with
        | none => simp only [h3] at h2; exact Option.noConfusion h2
        | some x =>
          obtain ⟨i1, init⟩ := x
          simp only [h3] at h2
          have hinit : P init := ih Rule.basicFactorR _ _ _ h3
          refine foldAux_inv P (fun _ => True) (fun _ _ _ _ => trivial) ?_
            (i1.length + 1) i1 init r1 e h2 hinit
          intro b a hb _
          exact hneg b hb
      · exact ih Rule.basicFactorR _ _ _ h1
    | basicFactorR =>
      simp only [run] at h
      rcases alt2_inv h with h1 | ⟨-, h1⟩
      · obtain ⟨r1, h2, -⟩ := ws_inv h1
        obtain ⟨s, hs, he⟩ := pmap_inv h2
        rw [he]
        exact hid _ _ _ hs
      rcases alt2_inv h1 with h2 | ⟨-, h2⟩
      · obtain ⟨r1, h3, -⟩ := ws_inv h2
        unfold ifElseFrom at h3
        obtain ⟨trip, hsp, he⟩ := pmap_inv h3
        obtain ⟨i1, -, -, hsp2⟩ := preceded_inv hsp
        obtain ⟨j1, j2, ab, tb, ce, hPa, -, hQc, hac⟩ := separated_pair_inv hsp2
        obtain ⟨k1, k2, ca, tb2, te, hca, -, hte, hab⟩ := separated_pair_inv hPa
        rw [he, hac, hab]
        exact hif _ _ _ (ih Rule.expressionR _ _ _ hca) (ih Rule.expressionR _ _ _ hte)
          (ih Rule.expressionR _ _ _ hQc)
      rcases alt2_inv h2 with h3 | ⟨-, h3⟩
      · obtain ⟨r1, h4, -⟩ := ws_inv h3
        obtain ⟨v, hv⟩ := value_shape h4
        rw [hv]
        exact hval v
      rcases alt2_inv h3 with h4 | ⟨-, h4⟩
      · obtain ⟨r1, h5, -⟩ := ws_inv h4
        unfold modulusFrom at h5
        obtain ⟨x, hd, he⟩ := pmap_inv h5
        obtain ⟨i1, la, i2, ra, -, hpi, -⟩ := delimited_inv hd
        rw [he]
        exact hmod _ (ih Rule.expressionR _ _ _ hpi)
      rcases alt2_inv h4 with h5 | ⟨-, h5⟩
      · obtain ⟨r1, h6, -⟩ := ws_inv h5
        unfold negateFrom at h6
        obtain ⟨x, hn1, he⟩ := pmap_inv h6
        obtain ⟨i1, a1, -, hfac⟩ := preceded_inv hn1
        rw [he]
        exact hneg _ (ih Rule.factorR _ _ _ hfac)
      · unfold parensFrom at h5
        obtain ⟨i1, x1, i2, y1, -, hpi, -⟩ := delimited_inv h5
        obtain ⟨j1, x2, j2, y2, -, hpe, -⟩ := delimited_inv hpi
        exact ih Rule.expressionR _ _ _ hpe

theorem alpha1_lt {input i1 t : List Char} (h : alpha1 input = some (i1, t)) :
    i1.length < input.length := by
  unfold alpha1 at h
  cases htw : List.takeWhile Char.isAlpha input with
  | nil => simp only [htw] at h; exact Option.noConfusion h
  | cons y ys =>
    simp only [htw, Option.some.injEq, Prod.mk.injEq] at h
    have hlen : (List.takeWhile Char.isAlpha input).length +
        (List.dropWhile Char.isAlpha input).length = input.length := by
      rw [← List.length_append, List.takeWhile_append_dropWhile]
    rw [htw] at hlen
    rw [← h.1]
    simp only [List.length_cons] at hlen
    omega

theorem alphanumeric1_le {input i1 t : List Char}
    (h : alphanumeric1 input = some (i1, t)) : i1.length ≤ input.length := by
  unfold alphanumeric1 at h
  cases htw : List.takeWhile Char.isAlphanum input with
  | nil => simp only [htw] at h; exact Option.noConfusion h
  | cons y ys =>
    simp only [htw, Option.some.injEq, Prod.mk.injEq] at h
    have hlen : (List.takeWhile Char.isAlphanum input).length +
        (List.dropWhile Char.isAlphanum input).length = input.length := by
      rw [← List.length_append, List.takeWhile_append_dropWhile]
    rw [← h.1]
    omega

theorem identifier_valid {input rest s : List Char}
    (h : identifier input = some (rest, s)) :
    (!s.isEmpty && !(RESERVED_WORDS.contains s)) = true := by
  obtain ⟨hcore, hf⟩ := verify_inv h
  unfold identifier_core at hcore
  obtain ⟨hs, a, hpair⟩ := recognize_inv hcore
  obtain ⟨i1, a1, b1, hfirst, hsecond, -⟩ := pair_inv hpair
  have h1 : i1.length < input.length := by
    rcases alt2_inv hfirst with hA | ⟨-, hA⟩
    · exact alpha1_lt hA
    · have := tagP_some_len hA
      simp only [List.length_cons, List.length_nil] at this
      omega
  have h2 : rest.length ≤ i1.length := by
    refine many0_le ?_ hsecond
    intro i r a hin
    rcases alt2_inv hin with hB | ⟨-, hB⟩
    · exact alphanumeric1_le hB
    · rcases alt2_inv hB with hC | ⟨-, hC⟩
      · exact tagP_le hC
      · exact tagP_le hC
  have hnonempty : s ≠ [] := by
    rw [hs]
    intro hnil
    have hlen := congrArg List.length hnil
    have h0 : min (input.length - rest.length) input.length = 0 := by
      simpa [List.length_take] using hlen
    omega
  have hempty : s.isEmpty = false := by simp [List.isEmpty_iff, hnonempty]
  rw [hempty, hf]
  rfl

/-- C4: the fold step of the conjugate parser builds a `Negate` unary node
(never the distinct `Conjugate` tag), and consequently no AST returned by the
expression entry point contains a `UnOp` node tagged `Conjugate`. -/
theorem c4_no_conjugate_tag :
    (∀ (acc : Expr) (s : List Char), conjStep acc s = Expr.UnOp UnOp.Negate acc) ∧
    (∀ (n : Nat) (input rest : List Char) (e : Expr),
      expression n input = some (rest, e) → noConjugate e = true) := by
  constructor
  · intro acc s
    rfl
  · intro n input rest e h
    refine run_inv (fun e => noConjugate e = true) ?_ ?_ ?_ ?_ ?_ ?_
      n Rule.expressionR input rest e h
    · intro v; rfl
    · intro _ _ _ _; rfl
    · intro op l r hl hr; simp [noConjugate, hl, hr]
    · intro x hx; simp [noConjugate, hx]
    · intro x hx; simp [noConjugate, hx]
    · intro c t x hc ht hx; simp [noConjugate, hc, ht, hx]

/-- C4 witness: `1^` parses to a `Negate`-tagged wrapper with no `Conjugate`
tag anywhere. -/
theorem c4_no_conjugate_tag_witness :
    noConjugate (Expr.UnOp UnOp.Negate (Expr.Value ⟨1, 0⟩)) = true :=
  c4_no_conjugate_tag.2 8 ("1^".toList) []
    (Expr.UnOp UnOp.Negate (Expr.Value ⟨1, 0⟩)) (by decide)

/-- C5: every `Id` node in any AST returned by the expression entry point
carries a non-empty, non-reserved name; and whenever the maximal identifier
match (the `recognize` part of the identifier lexer) equals a reserved word,
the identifier parser fails. -/
theorem c5_identifier_invariant :
    (∀ (n : Nat) (input rest : List Char) (e : Expr),
      expression n input = some (rest, e) → validIds e = true) ∧
    (∀ (input rest s : List Char), identifier_core input = some (rest, s) →
      RESERVED_WORDS.contains s = true → identifier input = none) := by
  constructor
  · intro n input rest e h
    refine run_inv (fun e => validIds e = true) ?_ ?_ ?_ ?_ ?_ ?_
      n Rule.expressionR input rest e h
    · intro v; rfl
    · intro input1 rest1 s hident
      have hv := identifier_valid hident
      simpa [validIds] using hv
    · intro op l r hl hr; simp [validIds, hl, hr]
    · intro x hx; simpa [validIds] using hx
    · intro x hx; simpa [validIds] using hx
    · intro c t x hc ht hx; simp [validIds, hc, ht, hx]
  · intro input rest s hcore hres
    have hmem : s ∈ RESERVED_WORDS := by simpa using hres
    unfold identifier verify
    simp [hcore, hmem]

/-- C5 witness: `x` parses to a valid identifier node, and the reserved word
`if` is rejected by the identifier parser. -/
theorem c5_identifier_invariant_witness :
    validIds (Expr.Id ("x".toList)) = true ∧ identifier ("if".toList) = none :=
  ⟨c5_identifier_invariant.1 7 ("x".toList) [] (Expr.Id ("x".toList)) (by decide),
   c5_identifier_invariant.2 ("if".toList) [] ("if".toList) (by decide) (by decide)⟩
